import Mathlib

/-!
Shallow embedding of the admission-queue core of `src/server.js`
(free-medical-service).  The relational `tokens` table is modelled as a
`List Patient`; each SQL statement of the source is translated into an
explicit list operation, and each HTTP handler into a function from the
database state (plus the transaction timestamp `now`, since `NOW()` is
constant inside one transaction) to the new state and the response.
`MAX_ALLOWED` is the configured capacity (default 20 in the source); it is
passed explicitly.
-/

namespace Clinic

/-- `status` column: `'waiting' | 'allowed' | 'done'`. -/
inductive Status where
  | waiting
  | allowed
  | done
deriving DecidableEq, Repr

/-- One row of the `tokens` table (the columns the core touches). -/
structure Patient where
  id : Nat
  token : String
  name : String
  age : Int
  country : String
  details : Option String
  status : Status
  admitted_at : Option Nat
  finished_at : Option Nat
  created_at : Nat
deriving DecidableEq, Repr

/-- The `tokens` table. -/
abbrev DB := List Patient

/-- Whitespace recognised by the trim step of token normalization. -/
def isSpaceChar (c : Char) : Bool := c = ' ' || c = '\t' || c = '\n' || c = '\r'

/-- `const normalizedToken = token.trim().toUpperCase();` — trim whitespace
from both ends, then upper-case, written out over the character list. -/
def normalizeToken (t : String) : String :=
  String.mk
    ((((t.data.dropWhile isSpaceChar).reverse.dropWhile isSpaceChar).reverse).map
      Char.toUpper)

/-- `function formatToken(id) { return `T${id}`; }` -/
def formatToken (id : Nat) : String := "T" ++ toString id

/-- Boolean row predicate for `status = 'allowed'`. -/
def isAllowed (p : Patient) : Bool := p.status = Status.allowed

/-- Boolean row predicate for `status = 'waiting'`. -/
def isWaiting (p : Patient) : Bool := p.status = Status.waiting

/-- `SELECT COUNT(*) FROM tokens WHERE status = 'allowed'`. -/
def allowedCount (s : DB) : Nat := s.countP isAllowed

/-- Number of rows with `status = 'waiting'`. -/
def waitingCount (s : DB) : Nat := s.countP isWaiting

/-- The eviction/snapshot ordering of the source:
`ORDER BY admitted_at ASC NULLS FIRST, id ASC` as a boolean `≤`. -/
def olderLe (p q : Patient) : Bool :=
  match p.admitted_at, q.admitted_at with
  | none, none => p.id ≤ q.id
  | none, some _ => true
  | some _, none => false
  | some a, some b => a < b ∨ (a = b ∧ p.id ≤ q.id)

/-- The `allowed` rows sorted by the eviction ordering
(`WHERE status = 'allowed' ORDER BY admitted_at ASC NULLS FIRST, id ASC`). -/
def sortAllowed (s : DB) : List Patient :=
  List.insertionSort (fun p q => olderLe p q = true) (s.filter isAllowed)

/-- `getAllowedPatients`: the allowed snapshot, `LIMIT MAX_ALLOWED`. -/
def getAllowedPatients (maxAllowed : Nat) (s : DB) : List Patient :=
  (sortAllowed s).take maxAllowed

/-- An SQL `UPDATE tokens SET ... WHERE hit` as a list map. -/
def updateRows (hit : Patient → Bool) (f : Patient → Patient) (s : DB) : DB :=
  s.map fun p => if hit p then f p else p

/-- `SET status = 'done', finished_at = NOW()`. -/
def setDoneF (now : Nat) (p : Patient) : Patient :=
  { p with status := Status.done, finished_at := some now }

/-- `SET status = 'allowed', admitted_at = NOW()`. -/
def setAllowedF (now : Nat) (p : Patient) : Patient :=
  { p with status := Status.allowed, admitted_at := some now }

/-- `makeRoomFor(client, slotsNeeded)`: while `slotsNeeded > 0`, re-count the
allowed rows; stop if below capacity; otherwise evict (set `done`, stamp
`finished_at`) the single oldest allowed row — the row selected by
`ORDER BY admitted_at ASC NULLS FIRST, id ASC LIMIT 1` — collecting its
token, and decrement `slotsNeeded`.  Stop if no allowed row remains. -/
def makeRoomFor (maxAllowed now : Nat) (s : DB) : Nat → DB × List String
  | 0 => (s, [])
  | Nat.succ k =>
    if allowedCount s < maxAllowed then (s, [])
    else
      match (sortAllowed s).head? with
      | none => (s, [])
      | some victim =>
        let s1 := updateRows (fun p => p.id = victim.id) (setDoneF now) s
        let r := makeRoomFor maxAllowed now s1 k
        (r.1, victim.token :: r.2)

/-- The JS object returned by `setPatientAllowed`: `{ notFound: true }`
leaves `patient` and `tokensFinished` undefined (`none`). -/
structure PromoteOutcome where
  patient : Option Patient
  tokensFinished : Option (List String)
  notFound : Bool
deriving DecidableEq, Repr

/-- `setPatientAllowed(client, token)`: normalize the token, lock and load the
row; `notFound` when missing or already `done`; already-`allowed` rows are
returned unchanged with zero evictions; otherwise make room for one slot and
promote the row (`status = 'allowed', admitted_at = NOW()`), returning the
updated row (`RETURNING *`, looked up again by id) and the evicted tokens. -/
def setPatientAllowed (maxAllowed now : Nat) (s : DB) (token : String) :
    DB × PromoteOutcome :=
  let tok := normalizeToken token
  match s.find? (fun p => p.token = tok) with
  | none => (s, ⟨none, none, true⟩)
  | some x =>
    if x.status = Status.done then (s, ⟨none, none, true⟩)
    else if x.status = Status.allowed then (s, ⟨some x, some [], false⟩)
    else
      let mr := makeRoomFor maxAllowed now s 1
      let s2 := updateRows (fun p => p.id = x.id) (setAllowedF now) mr.1
      (s2, ⟨s2.find? (fun p => p.id = x.id), some mr.2, false⟩)

/-- `POST /api/admit/:token`: run `setPatientAllowed` in a transaction;
on `notFound` roll back (state unchanged) and answer 404 (`none`); otherwise
commit and answer the promoted row and the evicted tokens. -/
def promoteEndpoint (maxAllowed now : Nat) (s : DB) (token : String) :
    DB × Option (Option Patient × List String) :=
  let r := setPatientAllowed maxAllowed now s token
  if r.2.notFound then (s, none)
  else (r.1, some (r.2.patient, r.2.tokensFinished.getD []))

/-- `POST /api/remove/:token`: normalize, lock and load the row; 404 (`none`)
with rollback when missing; otherwise record whether it was `allowed`, then
unconditionally `SET status = 'done', finished_at = NOW()` for the token. -/
def removeEndpoint (now : Nat) (s : DB) (token : String) :
    DB × Option Bool :=
  let tok := normalizeToken token
  match s.find? (fun p => p.token = tok) with
  | none => (s, none)
  | some x =>
    (updateRows (fun p => p.token = tok) (setDoneF now) s,
     some (isAllowed x))

/-- The `for (const row of waitingRes.rows)` loop of `POST /api/next`.
A `notFound` outcome leaves `tokensFinished` undefined, and
`finishedTokens.push(...tokensFinished)` then throws a `TypeError`
(spreading `undefined`); the thrown error is modelled as `none` and makes
the endpoint roll back.  Otherwise promoted rows and evicted tokens are
accumulated in iteration order. -/
def promoteLoop (maxAllowed now : Nat) (s : DB) :
    List String → Option (DB × List Patient × List String)
  | [] => some (s, [], [])
  | t :: rest =>
    let r := setPatientAllowed maxAllowed now s t
    if r.2.notFound then none
    else
      match promoteLoop maxAllowed now r.1 rest with
      | none => none
      | some (s2, pr, fin) =>
        some (s2,
          (match r.2.patient with | some p => p :: pr | none => pr),
          r.2.tokensFinished.getD [] ++ fin)

/-- `SELECT token FROM tokens WHERE status = 'waiting' ORDER BY id ASC
LIMIT $1`. -/
def waitingTokens (s : DB) (limit : Nat) : List String :=
  (((s.filter isWaiting).insertionSort fun p q => p.id ≤ q.id).take limit).map
    (fun p => p.token)

/-- Responses of `POST /api/next`. -/
inductive NextResult where
  | invalidArgument
  | noWaiting
  | okNext (admitted : Nat) (finished : List String)
  | failed
deriving DecidableEq, Repr

/-- `POST /api/next`: reject `requested ≤ 0` before any work; select up to
`requested` waiting tokens by ascending id; empty selection rolls back with a
"no waiting" response; run the promote loop, rolling back (500) if it threw;
otherwise commit, answering the number of promoted rows and (via the
notification fan-out) the evicted tokens. -/
def nextEndpoint (maxAllowed now : Nat) (s : DB) (requested : Int) :
    DB × NextResult :=
  if requested ≤ 0 then (s, NextResult.invalidArgument)
  else
    let sel := waitingTokens s requested.toNat
    if sel = [] then (s, NextResult.noWaiting)
    else
      match promoteLoop maxAllowed now s sel with
      | none => (s, NextResult.failed)
      | some (s1, pr, fin) => (s1, NextResult.okNext pr.length fin)

/-! ### Identity allocator (`nextIdentity`) and check-in -/

/-- The Postgres sequence behind `tokens.id`: `(last_value, is_called)`.
`nextval` returns `last_value` when `is_called` is false, else
`last_value + 1`, and leaves the sequence called. -/
def seqNextVal (sq : Nat × Bool) : Nat :=
  if sq.2 then sq.1 + 1 else sq.1

/-- `SELECT nextval(...)`. -/
def nextvalOp (sq : Nat × Bool) : Nat × (Nat × Bool) :=
  (seqNextVal sq, (seqNextVal sq, true))

/-- The whole server-side state: table plus identity sequence. -/
structure ServerState where
  db : DB
  seq : Nat × Bool
deriving DecidableEq, Repr

/-- `nextIdentity(client)`: fail fatally (`none`) when
`pg_get_serial_sequence` cannot resolve the sequence; when the table is
observed empty, take the advisory lock, re-count, and if still empty
`setval(seq, 1, false)`; finally `nextval` and return the fresh id. -/
def nextIdentity (resolvable : Bool) (st : ServerState) :
    Option (Nat × ServerState) :=
  if resolvable = false then none
  else
    let st1 :=
      if st.db.length = 0 then
        -- pg_advisory_xact_lock(42, 0); re-count; setval(seq, 1, false)
        if st.db.length = 0 then { st with seq := (1, false) } else st
      else st
    let r := nextvalOp st1.seq
    some (r.1, { st1 with seq := r.2 })

/-- The validated body of `POST /api/checkin`. -/
structure CheckinInput where
  name : String
  age : Int
  country : String
  details : Option String
deriving DecidableEq, Repr

/-- `POST /api/checkin`: reject missing name/country or negative age;
allocate an identity, derive the token, and `INSERT` a fresh `waiting` row. -/
def checkinEndpoint (resolvable : Bool) (now : Nat) (st : ServerState)
    (inp : CheckinInput) : ServerState × Option (String × Patient) :=
  if inp.name = "" ∨ inp.country = "" then (st, none)
  else if inp.age < 0 then (st, none)
  else
    match nextIdentity resolvable st with
    | none => (st, none)
    | some (nid, st1) =>
      let tok := formatToken nid
      let d := (inp.details.getD "").trim
      let p : Patient :=
        { id := nid, token := tok, name := inp.name.trim, age := inp.age,
          country := inp.country.trim,
          details := if d = "" then none else some d,
          status := Status.waiting, admitted_at := none,
          finished_at := none, created_at := now }
      ({ st1 with db := st1.db ++ [p] }, some (tok, p))

/-! ### Operation sequences over the server state -/

/-- One external trigger (HTTP request) against the server. -/
inductive Op where
  | register (now : Nat) (inp : CheckinInput)
  | promoteOne (now : Nat) (token : String)
  | removeOne (now : Nat) (token : String)
  | promoteNext (now : Nat) (n : Int)
deriving DecidableEq, Repr

/-- Apply one operation; failed operations roll back, leaving the state as
their endpoint functions return it. -/
def applyOp (maxAllowed : Nat) (resolvable : Bool) (st : ServerState) :
    Op → ServerState
  | Op.register now inp => (checkinEndpoint resolvable now st inp).1
  | Op.promoteOne now t =>
      { st with db := (promoteEndpoint maxAllowed now st.db t).1 }
  | Op.removeOne now t =>
      { st with db := (removeEndpoint now st.db t).1 }
  | Op.promoteNext now n =>
      { st with db := (nextEndpoint maxAllowed now st.db n).1 }

/-- Apply a sequence of operations in order. -/
def applyOps (maxAllowed : Nat) (resolvable : Bool) (st : ServerState) :
    List Op → ServerState
  | [] => st
  | op :: rest => applyOps maxAllowed resolvable (applyOp maxAllowed resolvable st op) rest

/-! ### Well-formedness of table states

`id` is the primary key and `token` has a `UNIQUE` constraint in the schema
(`ensureTokensTable`), and every stored token is produced by `formatToken`,
hence is fixed by `normalizeToken`. -/

/-- The `id` column. -/
def idsOf (s : DB) : List Nat := s.map fun p => p.id

/-- The `token` column. -/
def tokensOf (s : DB) : List String := s.map fun p => p.token

/-- Primary-key property of `id`. -/
def NodupIds (s : DB) : Prop := (idsOf s).Nodup

/-- `UNIQUE` property of `token`. -/
def NodupTokens (s : DB) : Prop := (tokensOf s).Nodup

/-- Every stored token is already normalized (tokens come from
`formatToken`). -/
def Canonical (s : DB) : Prop := ∀ p ∈ s, normalizeToken p.token = p.token

instance (s : DB) : Decidable (NodupIds s) :=
  inferInstanceAs (Decidable (idsOf s).Nodup)

instance (s : DB) : Decidable (NodupTokens s) :=
  inferInstanceAs (Decidable (tokensOf s).Nodup)

instance (s : DB) : Decidable (Canonical s) :=
  inferInstanceAs (Decidable (∀ p ∈ s, normalizeToken p.token = p.token))

/-! ### Basic lemmas -/

theorem mem_of_head? {α : Type _} {l : List α} {v : α}
    (h : l.head? = some v) : v ∈ l := by
  cases l with
  | nil => simp at h
  | cons a t => simp only [List.head?_cons, Option.some.injEq] at h; simp [h]

theorem isAllowed_iff {p : Patient} :
    isAllowed p = true ↔ p.status = Status.allowed := by
  simp [isAllowed]

theorem isWaiting_iff {p : Patient} :
    isWaiting p = true ↔ p.status = Status.waiting := by
  simp [isWaiting]

theorem idsOf_updateRows {hit : Patient → Bool} {f : Patient → Patient}
    (hf : ∀ p, (f p).id = p.id) (s : DB) :
    idsOf (updateRows hit f s) = idsOf s := by
  induction s with
  | nil => rfl
  | cons a t ih =>
    simp only [updateRows, List.map_cons, idsOf] at ih ⊢
    cases h : hit a <;> simp [h, hf, ih]

theorem tokensOf_updateRows {hit : Patient → Bool} {f : Patient → Patient}
    (hf : ∀ p, (f p).token = p.token) (s : DB) :
    tokensOf (updateRows hit f s) = tokensOf s := by
  induction s with
  | nil => rfl
  | cons a t ih =>
    simp only [updateRows, List.map_cons, tokensOf] at ih ⊢
    cases h : hit a <;> simp [h, hf, ih]

theorem mem_updateRows_of_not_hit {hit : Patient → Bool} {f : Patient → Patient}
    {r : Patient} {s : DB} (h : r ∈ s) (hh : hit r = false) :
    r ∈ updateRows hit f s := by
  have := List.mem_map_of_mem (fun p => if hit p then f p else p) h
  simpa [updateRows, hh] using this

theorem mem_updateRows_of_hit {hit : Patient → Bool} {f : Patient → Patient}
    {r : Patient} {s : DB} (h : r ∈ s) (hh : hit r = true) :
    f r ∈ updateRows hit f s := by
  have := List.mem_map_of_mem (fun p => if hit p then f p else p) h
  simpa [updateRows, hh] using this

theorem isAllowed_setDoneF (now : Nat) (p : Patient) :
    isAllowed (setDoneF now p) = false := by
  simp [isAllowed, setDoneF]

theorem isAllowed_setAllowedF (now : Nat) (p : Patient) :
    isAllowed (setAllowedF now p) = true := by
  simp [isAllowed, setAllowedF]

theorem countP_updateRows_setDone (hit : Patient → Bool) (now : Nat)
    (s : DB) :
    (updateRows hit (setDoneF now) s).countP isAllowed
      + s.countP (fun p => hit p && isAllowed p) = s.countP isAllowed := by
  induction s with
  | nil => rfl
  | cons a t ih =>
    simp only [updateRows, List.map_cons, List.countP_cons] at ih ⊢
    cases h : hit a <;>
      simp only [h, if_true, if_false, Bool.true_and, Bool.false_and,
        isAllowed_setDoneF, cond_true, cond_false, ite_true, ite_false] <;>
      [skip; cases ha : isAllowed a] <;> simp_all <;> omega

theorem countP_updateRows_setAllowed (hit : Patient → Bool) (now : Nat)
    (s : DB) :
    (updateRows hit (setAllowedF now) s).countP isAllowed
      = s.countP isAllowed + s.countP (fun p => hit p && !isAllowed p) := by
  induction s with
  | nil => rfl
  | cons a t ih =>
    simp only [updateRows, List.map_cons, List.countP_cons] at ih ⊢
    cases h : hit a <;>
      simp only [h, if_true, if_false, Bool.true_and, Bool.false_and,
        isAllowed_setAllowedF, ite_true, ite_false] <;>
      [skip; cases ha : isAllowed a] <;> simp_all <;> omega

theorem countP_id_le_one {s : DB} (hs : NodupIds s) (i : Nat) :
    s.countP (fun p => p.id = i) ≤ 1 := by
  induction s with
  | nil => simp
  | cons a t ih =>
    simp only [NodupIds, idsOf, List.map_cons, List.nodup_cons] at hs
    simp only [List.countP_cons]
    cases h : (decide (a.id = i)) with
    | false => simpa [h] using ih hs.2
    | true =>
      have hai : a.id = i := of_decide_eq_true h
      have hz : t.countP (fun p => decide (p.id = i)) = 0 := by
        rw [List.countP_eq_zero]
        intro p hp hpi
        have : p.id = i := of_decide_eq_true hpi
        exact hs.1 (by simpa [← this, hai ▸ this] using List.mem_map_of_mem (fun p => p.id) hp)
      simp [h, hz]

theorem nodupIds_inj {s : DB} (hs : NodupIds s) {a b : Patient}
    (ha : a ∈ s) (hb : b ∈ s) (h : a.id = b.id) : a = b :=
  List.inj_on_of_nodup_map hs ha hb h

theorem nodupTokens_inj {s : DB} (hs : NodupTokens s) {a b : Patient}
    (ha : a ∈ s) (hb : b ∈ s) (h : a.token = b.token) : a = b :=
  List.inj_on_of_nodup_map hs ha hb h

/-! ### The sorted allowed list -/

theorem sortAllowed_perm (s : DB) :
    (sortAllowed s).Perm (s.filter isAllowed) :=
  List.perm_insertionSort _ _

theorem length_sortAllowed (s : DB) :
    (sortAllowed s).length = allowedCount s := by
  rw [(sortAllowed_perm s).length_eq, allowedCount, List.countP_eq_length_filter]

theorem mem_of_sortAllowed_head {s : DB} {v : Patient}
    (h : (sortAllowed s).head? = some v) :
    v ∈ s ∧ v.status = Status.allowed := by
  have hv : v ∈ sortAllowed s := mem_of_head? h
  have hm := List.mem_filter.mp ((sortAllowed_perm s).mem_iff.mp hv)
  exact ⟨hm.1, isAllowed_iff.mp hm.2⟩

theorem sortAllowed_head_isSome {s : DB} (h : 0 < allowedCount s) :
    ∃ v, (sortAllowed s).head? = some v := by
  cases hh : (sortAllowed s).head? with
  | some v => exact ⟨v, rfl⟩
  | none =>
    have hnil : sortAllowed s = [] := by
      cases he : sortAllowed s with
      | nil => rfl
      | cons a t => rw [he] at hh; simp at hh
    have := length_sortAllowed s
    rw [hnil] at this
    simp at this
    omega

/-! ### `makeRoomFor` -/

theorem makeRoomFor_zero (maxA now : Nat) (s : DB) :
    makeRoomFor maxA now s 0 = (s, []) := rfl

theorem makeRoomFor_succ_lt {maxA now : Nat} {s : DB} (k : Nat)
    (h : allowedCount s < maxA) :
    makeRoomFor maxA now s (k + 1) = (s, []) := by
  simp [makeRoomFor, h]

theorem makeRoomFor_succ_ge {maxA now : Nat} {s : DB} (k : Nat) {v : Patient}
    (h : ¬ allowedCount s < maxA) (hv : (sortAllowed s).head? = some v) :
    makeRoomFor maxA now s (k + 1) =
      (let s1 := updateRows (fun p => p.id = v.id) (setDoneF now) s
       let r := makeRoomFor maxA now s1 k
       (r.1, v.token :: r.2)) := by
  simp [makeRoomFor, h, hv]

theorem idsOf_makeRoomFor (maxA now : Nat) :
    ∀ (k : Nat) (s : DB), idsOf (makeRoomFor maxA now s k).1 = idsOf s := by
  intro k
  induction k with
  | zero => intro s; rfl
  | succ k ih =>
    intro s
    by_cases h : allowedCount s < maxA
    · rw [makeRoomFor_succ_lt k h]
    · cases hv : (sortAllowed s).head? with
      | none => simp [makeRoomFor, h, hv]
      | some v =>
        rw [makeRoomFor_succ_ge k h hv]
        simp only []
        rw [ih]
        exact idsOf_updateRows (f := setDoneF now) (fun p => rfl) s

theorem tokensOf_makeRoomFor (maxA now : Nat) :
    ∀ (k : Nat) (s : DB), tokensOf (makeRoomFor maxA now s k).1 = tokensOf s := by
  intro k
  induction k with
  | zero => intro s; rfl
  | succ k ih =>
    intro s
    by_cases h : allowedCount s < maxA
    · rw [makeRoomFor_succ_lt k h]
    · cases hv : (sortAllowed s).head? with
      | none => simp [makeRoomFor, h, hv]
      | some v =>
        rw [makeRoomFor_succ_ge k h hv]
        simp only []
        rw [ih]
        exact tokensOf_updateRows (f := setDoneF now) (fun p => rfl) s

/-- Evicting the selected oldest allowed row decrements the allowed count by
exactly one (primary-key uniqueness). -/
theorem allowedCount_evict {s : DB} {v : Patient} (hs : NodupIds s)
    (hv : (sortAllowed s).head? = some v) (now : Nat) :
    allowedCount (updateRows (fun p => p.id = v.id) (setDoneF now) s) + 1
      = allowedCount s := by
  obtain ⟨hmem, hall⟩ := mem_of_sortAllowed_head hv
  have hone :
      s.countP (fun p => (decide (p.id = v.id)) && isAllowed p) = 1 := by
    have hle : s.countP (fun p => (decide (p.id = v.id)) && isAllowed p)
        ≤ s.countP (fun p => p.id = v.id) :=
      List.countP_mono_left (fun x _ hx => by
        simpa using (Bool.and_elim_left hx))
    have h1 := countP_id_le_one hs v.id
    have hpos : 0 < s.countP (fun p => (decide (p.id = v.id)) && isAllowed p) := by
      rw [List.countP_pos_iff]
      exact ⟨v, hmem, by simp [isAllowed, hall]⟩
    omega
  have := countP_updateRows_setDone (fun p => p.id = v.id) now s
  rw [hone] at this
  exact this

/-- After `makeRoomFor(_, 1)` from a state satisfying the capacity invariant
with positive capacity, the allowed count is strictly below capacity. -/
theorem makeRoomFor_one_lt {maxA now : Nat} {s : DB} (hmax : 0 < maxA)
    (hs : NodupIds s) (hle : allowedCount s ≤ maxA) :
    allowedCount (makeRoomFor maxA now s 1).1 < maxA := by
  by_cases h : allowedCount s < maxA
  · rw [makeRoomFor_succ_lt 0 h]; exact h
  · have hcnt : allowedCount s = maxA := by omega
    have hpos : 0 < allowedCount s := by omega
    obtain ⟨v, hv⟩ := sortAllowed_head_isSome hpos
    rw [makeRoomFor_succ_ge 0 h hv]
    simp only [makeRoomFor_zero]
    have := allowedCount_evict hs hv now
    omega

/-- The allowed count never increases through `makeRoomFor`. -/
theorem allowedCount_makeRoomFor_le (maxA now : Nat) :
    ∀ (k : Nat) (s : DB),
      allowedCount (makeRoomFor maxA now s k).1 ≤ allowedCount s := by
  intro k
  induction k with
  | zero => intro s; exact Nat.le_refl _
  | succ k ih =>
    intro s
    by_cases h : allowedCount s < maxA
    · rw [makeRoomFor_succ_lt k h]
    · cases hv : (sortAllowed s).head? with
      | none => simp [makeRoomFor, h, hv]
      | some v =>
        rw [makeRoomFor_succ_ge k h hv]
        simp only []
        have h2 := countP_updateRows_setDone (fun p => p.id = v.id) now s
        have h3 := ih (updateRows (fun p => p.id = v.id) (setDoneF now) s)
        simp only [allowedCount] at *
        omega

/-! ### Transfer of well-formedness along column equalities -/

theorem nodupIds_of_idsOf_eq {s1 s : DB} (h : idsOf s1 = idsOf s)
    (hs : NodupIds s) : NodupIds s1 := by
  unfold NodupIds
  rw [h]
  exact hs

theorem nodupTokens_of_tokensOf_eq {s1 s : DB} (h : tokensOf s1 = tokensOf s)
    (hs : NodupTokens s) : NodupTokens s1 := by
  unfold NodupTokens
  rw [h]
  exact hs

theorem canonical_of_tokensOf_eq {s1 s : DB} (h : tokensOf s1 = tokensOf s)
    (hc : Canonical s) : Canonical s1 := by
  intro q hq
  have : q.token ∈ tokensOf s1 := List.mem_map_of_mem (fun p => p.token) hq
  rw [h] at this
  obtain ⟨p, hp, hpq⟩ := List.mem_map.mp this
  rw [← hpq]
  exact hc p hp

/-! ### `setPatientAllowed` case analysis -/

theorem setPatientAllowed_of_find_none {maxA now : Nat} {s : DB} {t : String}
    (h : s.find? (fun p => p.token = normalizeToken t) = none) :
    setPatientAllowed maxA now s t = (s, ⟨none, none, true⟩) := by
  simp [setPatientAllowed, h]

theorem setPatientAllowed_of_done {maxA now : Nat} {s : DB} {t : String}
    {x : Patient}
    (h : s.find? (fun p => p.token = normalizeToken t) = some x)
    (hx : x.status = Status.done) :
    setPatientAllowed maxA now s t = (s, ⟨none, none, true⟩) := by
  simp [setPatientAllowed, h, hx]

theorem setPatientAllowed_of_allowed {maxA now : Nat} {s : DB} {t : String}
    {x : Patient}
    (h : s.find? (fun p => p.token = normalizeToken t) = some x)
    (hx : x.status = Status.allowed) :
    setPatientAllowed maxA now s t = (s, ⟨some x, some [], false⟩) := by
  simp [setPatientAllowed, h, hx]

theorem setPatientAllowed_of_waiting {maxA now : Nat} {s : DB} {t : String}
    {x : Patient}
    (h : s.find? (fun p => p.token = normalizeToken t) = some x)
    (hx : x.status = Status.waiting) :
    setPatientAllowed maxA now s t =
      (updateRows (fun p => p.id = x.id) (setAllowedF now) (makeRoomFor maxA now s 1).1,
       ⟨(updateRows (fun p => p.id = x.id) (setAllowedF now) (makeRoomFor maxA now s 1).1).find?
          (fun p => p.id = x.id),
        some (makeRoomFor maxA now s 1).2, false⟩) := by
  simp [setPatientAllowed, h, hx]

theorem idsOf_setPatientAllowed (maxA now : Nat) (s : DB) (t : String) :
    idsOf (setPatientAllowed maxA now s t).1 = idsOf s := by
  cases h : s.find? (fun p => p.token = normalizeToken t) with
  | none => rw [setPatientAllowed_of_find_none h]
  | some x =>
    cases hx : x.status with
    | done => rw [setPatientAllowed_of_done h hx]
    | allowed => rw [setPatientAllowed_of_allowed h hx]
    | waiting =>
      rw [setPatientAllowed_of_waiting h hx]
      simp only []
      rw [idsOf_updateRows (f := setAllowedF now) (fun p => rfl)]
      exact idsOf_makeRoomFor maxA now 1 s

theorem tokensOf_setPatientAllowed (maxA now : Nat) (s : DB) (t : String) :
    tokensOf (setPatientAllowed maxA now s t).1 = tokensOf s := by
  cases h : s.find? (fun p => p.token = normalizeToken t) with
  | none => rw [setPatientAllowed_of_find_none h]
  | some x =>
    cases hx : x.status with
    | done => rw [setPatientAllowed_of_done h hx]
    | allowed => rw [setPatientAllowed_of_allowed h hx]
    | waiting =>
      rw [setPatientAllowed_of_waiting h hx]
      simp only []
      rw [tokensOf_updateRows (f := setAllowedF now) (fun p => rfl)]
      exact tokensOf_makeRoomFor maxA now 1 s

/-- `setPatientAllowed` preserves the capacity invariant: the room is made
*before* the row is promoted. -/
theorem allowedCount_setPatientAllowed_le {maxA : Nat} (now : Nat) {s : DB}
    (t : String) (hmax : 0 < maxA) (hs : NodupIds s)
    (hle : allowedCount s ≤ maxA) :
    allowedCount (setPatientAllowed maxA now s t).1 ≤ maxA := by
  cases h : s.find? (fun p => p.token = normalizeToken t) with
  | none => rw [setPatientAllowed_of_find_none h]; exact hle
  | some x =>
    cases hx : x.status with
    | done => rw [setPatientAllowed_of_done h hx]; exact hle
    | allowed => rw [setPatientAllowed_of_allowed h hx]; exact hle
    | waiting =>
      rw [setPatientAllowed_of_waiting h hx]
      simp only []
      have hm1 : allowedCount (makeRoomFor maxA now s 1).1 < maxA :=
        makeRoomFor_one_lt hmax hs hle
      have hnodup1 : NodupIds (makeRoomFor maxA now s 1).1 :=
        nodupIds_of_idsOf_eq (idsOf_makeRoomFor maxA now 1 s) hs
      have heq := countP_updateRows_setAllowed (fun p => p.id = x.id) now
        (makeRoomFor maxA now s 1).1
      have hmono :
          (makeRoomFor maxA now s 1).1.countP
              (fun p => (decide (p.id = x.id)) && !isAllowed p)
            ≤ (makeRoomFor maxA now s 1).1.countP (fun p => p.id = x.id) :=
        List.countP_mono_left (fun y _ hy => by
          simpa using (Bool.and_elim_left hy))
      have hone := countP_id_le_one hnodup1 x.id
      simp only [allowedCount] at *
      omega

/-! ### Row lookup by token -/

theorem find?_token_of_mem {s : DB} (hst : NodupTokens s) {w : Patient}
    (hw : w ∈ s) {t : String} (ht : normalizeToken t = w.token) :
    s.find? (fun p => p.token = normalizeToken t) = some w := by
  have hsome : (s.find? (fun p => p.token = normalizeToken t)).isSome := by
    rw [List.find?_isSome]
    exact ⟨w, hw, by simp [ht]⟩
  obtain ⟨x, hx⟩ := Option.isSome_iff_exists.mp hsome
  have hpx : x.token = normalizeToken t := by simpa using List.find?_some hx
  rw [hx, nodupTokens_inj hst (List.mem_of_find?_eq_some hx) hw (by rw [hpx, ht])]

/-! ### Persistence of rows through one promotion step -/

/-- A waiting row is never touched by the eviction step (evictions hit an
`allowed` row, a different row, hence a different primary key). -/
theorem waiting_mem_makeRoomFor_one {maxA now : Nat} {s : DB} {r : Patient}
    (hs : NodupIds s) (hr : r ∈ s) (hrw : r.status = Status.waiting) :
    r ∈ (makeRoomFor maxA now s 1).1 := by
  by_cases h : allowedCount s < maxA
  · rw [makeRoomFor_succ_lt 0 h]; exact hr
  · cases hv : (sortAllowed s).head? with
    | none => simp only [makeRoomFor, h, if_false, ite_false, hv]; exact hr
    | some v =>
      rw [makeRoomFor_succ_ge 0 h hv]
      simp only [makeRoomFor_zero]
      obtain ⟨hvm, hva⟩ := mem_of_sortAllowed_head hv
      have hne : r.id ≠ v.id := by
        intro hid
        have := nodupIds_inj hs hr hvm hid
        rw [this, hva] at hrw
        exact Status.noConfusion hrw
      exact mem_updateRows_of_not_hit hr (by simp [hne])

/-- An allowed row either survives the eviction step untouched or its token
is collected in the evicted list. -/
theorem allowed_mem_or_evicted_makeRoomFor_one {maxA now : Nat} {s : DB}
    {r : Patient} (hs : NodupIds s) (hr : r ∈ s)
    (_hra : r.status = Status.allowed) :
    r.token ∈ (makeRoomFor maxA now s 1).2 ∨ r ∈ (makeRoomFor maxA now s 1).1 := by
  by_cases h : allowedCount s < maxA
  · rw [makeRoomFor_succ_lt 0 h]; exact Or.inr hr
  · cases hv : (sortAllowed s).head? with
    | none => simp only [makeRoomFor, h, if_false, ite_false, hv]; exact Or.inr hr
    | some v =>
      rw [makeRoomFor_succ_ge 0 h hv]
      simp only [makeRoomFor_zero]
      obtain ⟨hvm, hva⟩ := mem_of_sortAllowed_head hv
      by_cases hid : r.id = v.id
      · left
        rw [nodupIds_inj hs hr hvm hid]
        exact List.mem_singleton.mpr rfl
      · right
        exact mem_updateRows_of_not_hit hr (by simp [hid])

/-- A waiting row with a different token passes through a promotion step of
another token unchanged. -/
theorem waiting_persists_step {maxA now : Nat} {s : DB} {t : String}
    {r : Patient} (hs : NodupIds s) (hr : r ∈ s)
    (hrw : r.status = Status.waiting) (hne : normalizeToken t ≠ r.token) :
    r ∈ (setPatientAllowed maxA now s t).1 := by
  cases h : s.find? (fun p => p.token = normalizeToken t) with
  | none => rw [setPatientAllowed_of_find_none h]; exact hr
  | some x =>
    cases hx : x.status with
    | done => rw [setPatientAllowed_of_done h hx]; exact hr
    | allowed => rw [setPatientAllowed_of_allowed h hx]; exact hr
    | waiting =>
      rw [setPatientAllowed_of_waiting h hx]
      simp only []
      have hxt : x.token = normalizeToken t := by simpa using List.find?_some h
      have hxr : x ≠ r := fun he => hne (by rw [← hxt, he])
      have hidne : r.id ≠ x.id := by
        intro hid
        exact hxr (nodupIds_inj hs (List.mem_of_find?_eq_some h) hr hid.symm)
      have hr1 : r ∈ (makeRoomFor maxA now s 1).1 :=
        waiting_mem_makeRoomFor_one hs hr hrw
      exact mem_updateRows_of_not_hit hr1 (by simp [hidne])

/-- An allowed row passes through a promotion step of any token either
unchanged or with its token collected among the evicted tokens. -/
theorem allowed_persists_step {maxA now : Nat} {s : DB} {t : String}
    {r : Patient} (hs : NodupIds s) (hr : r ∈ s)
    (hra : r.status = Status.allowed) :
    r.token ∈ ((setPatientAllowed maxA now s t).2.tokensFinished.getD [])
      ∨ r ∈ (setPatientAllowed maxA now s t).1 := by
  cases h : s.find? (fun p => p.token = normalizeToken t) with
  | none => rw [setPatientAllowed_of_find_none h]; exact Or.inr hr
  | some x =>
    cases hx : x.status with
    | done => rw [setPatientAllowed_of_done h hx]; exact Or.inr hr
    | allowed => rw [setPatientAllowed_of_allowed h hx]; exact Or.inr hr
    | waiting =>
      rw [setPatientAllowed_of_waiting h hx]
      simp only [Option.getD_some]
      rcases @allowed_mem_or_evicted_makeRoomFor_one maxA now s r hs hr hra with hev | hm1
      · exact Or.inl hev
      · right
        have hxr : x ≠ r := fun he => by
          rw [he, hra] at hx
          exact Status.noConfusion hx
        have hidne : r.id ≠ x.id := fun hid =>
          hxr (nodupIds_inj hs (List.mem_of_find?_eq_some h) hr hid.symm)
        exact mem_updateRows_of_not_hit hm1 (by simp [hidne])

/-- Promoting a waiting row by its own token: the room is made first, then
the row itself is set `allowed` with `admitted_at = now` and returned. -/
theorem setPatientAllowed_waiting_self {maxA now : Nat} {s : DB} {w : Patient}
    (hs : NodupIds s) (hst : NodupTokens s) (hw : w ∈ s)
    (hww : w.status = Status.waiting)
    (hcan : normalizeToken w.token = w.token) :
    setPatientAllowed maxA now s w.token =
      (updateRows (fun p => p.id = w.id) (setAllowedF now) (makeRoomFor maxA now s 1).1,
       ⟨some (setAllowedF now w), some (makeRoomFor maxA now s 1).2, false⟩) := by
  have hfind := find?_token_of_mem hst hw hcan
  rw [setPatientAllowed_of_waiting hfind hww]
  have hw1 : w ∈ (makeRoomFor maxA now s 1).1 :=
    waiting_mem_makeRoomFor_one hs hw hww
  have hmem : setAllowedF now w ∈
      updateRows (fun p => p.id = w.id) (setAllowedF now) (makeRoomFor maxA now s 1).1 :=
    mem_updateRows_of_hit hw1 (by simp)
  have hnodup2 : NodupIds
      (updateRows (fun p => p.id = w.id) (setAllowedF now) (makeRoomFor maxA now s 1).1) :=
    nodupIds_of_idsOf_eq
      (by rw [idsOf_updateRows (f := setAllowedF now) (fun p => rfl)]
          exact idsOf_makeRoomFor maxA now 1 s) hs
  have hsome : ((updateRows (fun p => p.id = w.id) (setAllowedF now)
      (makeRoomFor maxA now s 1).1).find? (fun p => p.id = w.id)).isSome := by
    rw [List.find?_isSome]
    exact ⟨setAllowedF now w, hmem, by simp [setAllowedF]⟩
  obtain ⟨y, hy⟩ := Option.isSome_iff_exists.mp hsome
  have hyid : y.id = w.id := by simpa using List.find?_some hy
  have hym := List.mem_of_find?_eq_some hy
  have hyw : y = setAllowedF now w :=
    nodupIds_inj hnodup2 hym hmem (by simp [setAllowedF, hyid])
  rw [hy, hyw]

/-! ### The batch loop -/

theorem promoteLoop_nil (maxA now : Nat) (s : DB) :
    promoteLoop maxA now s [] = some (s, [], []) := rfl

theorem promoteLoop_cons_notFound {maxA now : Nat} {s : DB} {t : String}
    (h : (setPatientAllowed maxA now s t).2.notFound = true) (rest : List String) :
    promoteLoop maxA now s (t :: rest) = none := by
  simp [promoteLoop, h]

theorem promoteLoop_cons_ok {maxA now : Nat} {s : DB} {t : String}
    (h : (setPatientAllowed maxA now s t).2.notFound = false) (rest : List String) :
    promoteLoop maxA now s (t :: rest) =
      match promoteLoop maxA now (setPatientAllowed maxA now s t).1 rest with
      | none => none
      | some (s2, pr, fin) =>
        some (s2,
          (match (setPatientAllowed maxA now s t).2.patient with
           | some p => p :: pr | none => pr),
          (setPatientAllowed maxA now s t).2.tokensFinished.getD [] ++ fin) := by
  simp [promoteLoop, h]

/-- Through the whole batch loop, an allowed row either keeps its record in
the final state or its token is collected among the evicted tokens. -/
theorem allowed_persists_loop {maxA now : Nat} :
    ∀ (ts : List String) (s : DB) (r : Patient), NodupIds s → r ∈ s →
      r.status = Status.allowed →
      ∀ {s1 : DB} {pr : List Patient} {fin : List String},
        promoteLoop maxA now s ts = some (s1, pr, fin) →
        r.token ∈ fin ∨ r ∈ s1 := by
  intro ts
  induction ts with
  | nil =>
    intro s r _ hr _ s1 pr fin h
    rw [promoteLoop_nil] at h
    obtain ⟨h1, -, h3⟩ := Prod.mk.injEq .. ▸ (by
      injection h with h'
      exact ⟨congrArg Prod.fst h', congrArg (fun z => z.2.1) h',
        congrArg (fun z => z.2.2) h'⟩ :
      s = s1 ∧ ([] : List Patient) = pr ∧ ([] : List String) = fin)
    rw [← h1]
    exact Or.inr hr
  | cons t rest ih =>
    intro s r hs hr hra s1 pr fin h
    cases hnf : (setPatientAllowed maxA now s t).2.notFound with
    | true => rw [promoteLoop_cons_notFound hnf] at h; exact Option.noConfusion h
    | false =>
      rw [promoteLoop_cons_ok hnf] at h
      cases hrec : promoteLoop maxA now (setPatientAllowed maxA now s t).1 rest with
      | none => rw [hrec] at h; exact Option.noConfusion h
      | some z =>
        obtain ⟨s2, pr2, fin2⟩ := z
        rw [hrec] at h
        simp only [Option.some.injEq] at h
        have hs2 : s2 = s1 := congrArg Prod.fst h
        have hfin : (setPatientAllowed maxA now s t).2.tokensFinished.getD [] ++ fin2 = fin :=
          congrArg (fun z => z.2.2) h
        rcases allowed_persists_step (t := t) hs hr hra with hev | hsur
        · left
          rw [← hfin]
          exact List.mem_append_left _ hev
        · have hs' : NodupIds (setPatientAllowed maxA now s t).1 :=
            nodupIds_of_idsOf_eq (idsOf_setPatientAllowed maxA now s t) hs
          rcases ih (setPatientAllowed maxA now s t).1 r hs' hsur hra hrec with hv | hm
          · left
            rw [← hfin]
            exact List.mem_append_right _ hv
          · right
            rw [← hs2]
            exact hm

/-- Through the whole batch loop, the capacity invariant is preserved and the
`id` column is untouched. -/
theorem promoteLoop_count_le {maxA now : Nat} (hmax : 0 < maxA) :
    ∀ (ts : List String) (s : DB), NodupIds s → allowedCount s ≤ maxA →
      ∀ {s1 : DB} {pr : List Patient} {fin : List String},
        promoteLoop maxA now s ts = some (s1, pr, fin) →
        allowedCount s1 ≤ maxA ∧ idsOf s1 = idsOf s ∧ tokensOf s1 = tokensOf s := by
  intro ts
  induction ts with
  | nil =>
    intro s _ hle s1 pr fin h
    rw [promoteLoop_nil] at h
    have : s = s1 := by injection h with h'; exact congrArg Prod.fst h'
    rw [← this]
    exact ⟨hle, rfl, rfl⟩
  | cons t rest ih =>
    intro s hs hle s1 pr fin h
    cases hnf : (setPatientAllowed maxA now s t).2.notFound with
    | true => rw [promoteLoop_cons_notFound hnf] at h; exact Option.noConfusion h
    | false =>
      rw [promoteLoop_cons_ok hnf] at h
      cases hrec : promoteLoop maxA now (setPatientAllowed maxA now s t).1 rest with
      | none => rw [hrec] at h; exact Option.noConfusion h
      | some z =>
        obtain ⟨s2, pr2, fin2⟩ := z
        rw [hrec] at h
        simp only [Option.some.injEq] at h
        have hs2 : s2 = s1 := congrArg Prod.fst h
        have hs' : NodupIds (setPatientAllowed maxA now s t).1 :=
          nodupIds_of_idsOf_eq (idsOf_setPatientAllowed maxA now s t) hs
        have hle' := allowedCount_setPatientAllowed_le now t hmax hs hle
        obtain ⟨h1, h2, h3⟩ := ih (setPatientAllowed maxA now s t).1 hs' hle' hrec
        rw [← hs2]
        exact ⟨h1,
          h2.trans (idsOf_setPatientAllowed maxA now s t),
          h3.trans (tokensOf_setPatientAllowed maxA now s t)⟩

/-- Main lemma about the batch loop run on distinct tokens of waiting rows:
every iteration promotes its row (no `notFound`, so no abort), the promoted
rows are exactly the given tokens in order, the capacity invariant is kept,
and each promoted row either ends up evicted (token collected) or remains
allowed in the final state. -/
theorem promoteLoop_main {maxA now : Nat} (hmax : 0 < maxA) :
    ∀ (ts : List String) (s : DB), NodupIds s → NodupTokens s → Canonical s →
      allowedCount s ≤ maxA → ts.Nodup →
      (∀ t ∈ ts, ∃ w ∈ s, w.token = t ∧ w.status = Status.waiting) →
      ∃ s1 pr fin, promoteLoop maxA now s ts = some (s1, pr, fin) ∧
        pr.map (fun p => p.token) = ts ∧
        (∀ t ∈ ts, t ∈ fin ∨ ∃ q ∈ s1, q.token = t ∧ q.status = Status.allowed) := by
  intro ts
  induction ts with
  | nil =>
    intro s _ _ _ _ _ _
    exact ⟨s, [], [], promoteLoop_nil maxA now s, rfl, by simp⟩
  | cons t rest ih =>
    intro s hs hst hcan hle hnodup hwait
    obtain ⟨w, hwmem, hwtok, hww⟩ := hwait t (List.mem_cons_self t rest)
    have hcanw : normalizeToken w.token = w.token := hcan w hwmem
    have hself := @setPatientAllowed_waiting_self maxA now s w hs hst hwmem hww hcanw
    rw [← hwtok]
    have hnf : (setPatientAllowed maxA now s w.token).2.notFound = false := by
      rw [hself]
    have hs' : NodupIds (setPatientAllowed maxA now s w.token).1 :=
      nodupIds_of_idsOf_eq (idsOf_setPatientAllowed maxA now s w.token) hs
    have hst' : NodupTokens (setPatientAllowed maxA now s w.token).1 :=
      nodupTokens_of_tokensOf_eq (tokensOf_setPatientAllowed maxA now s w.token) hst
    have hcan' : Canonical (setPatientAllowed maxA now s w.token).1 :=
      canonical_of_tokensOf_eq (tokensOf_setPatientAllowed maxA now s w.token) hcan
    have hle' : allowedCount (setPatientAllowed maxA now s w.token).1 ≤ maxA :=
      allowedCount_setPatientAllowed_le now w.token hmax hs hle
    have hwait' : ∀ t' ∈ rest,
        ∃ w' ∈ (setPatientAllowed maxA now s w.token).1,
          w'.token = t' ∧ w'.status = Status.waiting := by
      intro t' ht'
      obtain ⟨w', hw'mem, hw'tok, hw'w⟩ := hwait t' (List.mem_cons_of_mem t ht')
      have hne : normalizeToken w.token ≠ w'.token := by
        rw [hcanw, hw'tok, hwtok]
        intro hcontra
        rw [hcontra] at hnodup
        exact (List.nodup_cons.mp hnodup).1 ht'
      exact ⟨w', waiting_persists_step hs hw'mem hw'w hne, hw'tok, hw'w⟩
    obtain ⟨s2, pr2, fin2, hrec, hmap, hall⟩ :=
      ih (setPatientAllowed maxA now s w.token).1 hs' hst' hcan' hle'
        (List.nodup_cons.mp hnodup).2 hwait'
    refine ⟨s2, setAllowedF now w :: pr2,
      (makeRoomFor maxA now s 1).2 ++ fin2, ?_, ?_, ?_⟩
    · rw [promoteLoop_cons_ok hnf rest, hrec]
      simp only []
      rw [hself]
      rfl
    · simp only [List.map_cons, hmap, setAllowedF]
    · intro t' ht'
      rcases List.mem_cons.mp ht' with he | hm
      · -- the head token: its promoted record survives or gets evicted later
        subst he
        have hq0mem : setAllowedF now w ∈ (setPatientAllowed maxA now s w.token).1 := by
          rw [hself]
          exact mem_updateRows_of_hit
            (waiting_mem_makeRoomFor_one hs hwmem hww) (by simp)
        rcases allowed_persists_loop rest (setPatientAllowed maxA now s w.token).1
            (setAllowedF now w) hs' hq0mem (by simp [setAllowedF]) hrec with hv | hmem2
        · exact Or.inl (List.mem_append_right _ (by simpa [setAllowedF] using hv))
        · exact Or.inr ⟨setAllowedF now w, hmem2, by simp [setAllowedF], by simp [setAllowedF]⟩
      · rcases hall t' hm with hv | hq
        · exact Or.inl (List.mem_append_right _ hv)
        · exact Or.inr hq

/-! ### The waiting-token selection of `POST /api/next` -/

theorem length_waitingTokens (s : DB) (limit : Nat) :
    (waitingTokens s limit).length = min limit (waitingCount s) := by
  rw [waitingTokens, List.length_map, List.length_take,
    List.length_insertionSort, waitingCount, List.countP_eq_length_filter]

theorem waitingTokens_sound {s : DB} {limit : Nat} {t : String}
    (h : t ∈ waitingTokens s limit) :
    ∃ w ∈ s, w.token = t ∧ w.status = Status.waiting := by
  obtain ⟨p, hp, hpt⟩ := List.mem_map.mp h
  have hsort : p ∈ (s.filter isWaiting).insertionSort (fun p q => p.id ≤ q.id) :=
    List.mem_of_mem_take hp
  have hfil : p ∈ s.filter isWaiting :=
    (List.perm_insertionSort _ _).mem_iff.mp hsort
  have := List.mem_filter.mp hfil
  exact ⟨p, this.1, hpt, isWaiting_iff.mp this.2⟩

theorem waitingTokens_nodup {s : DB} (hst : NodupTokens s) (limit : Nat) :
    (waitingTokens s limit).Nodup := by
  rw [waitingTokens, List.map_take]
  refine List.Nodup.sublist (List.take_sublist _ _) ?_
  rw [List.Perm.nodup_iff (List.Perm.map _ (List.perm_insertionSort _ _))]
  exact List.Nodup.sublist
    (List.Sublist.map (fun p => p.token) (List.filter_sublist s)) hst

/-! ### The identity allocator -/

/-- Invariant linking the sequence to the stored identities: the next value
the sequence will produce is positive and strictly above every stored id
(Postgres sequences never go below their start value 1). -/
def SeqInv (st : ServerState) : Prop :=
  0 < seqNextVal st.seq ∧ ∀ p ∈ st.db, p.id < seqNextVal st.seq

instance (st : ServerState) : Decidable (SeqInv st) :=
  inferInstanceAs (Decidable (_ ∧ ∀ p ∈ st.db, p.id < seqNextVal st.seq))

theorem nextIdentity_false (st : ServerState) : nextIdentity false st = none := rfl

theorem nextIdentity_spec {st : ServerState} (hinv : SeqInv st) :
    ∃ nid st1, nextIdentity true st = some (nid, st1) ∧
      st1.db = st.db ∧ 0 < nid ∧ (∀ p ∈ st.db, p.id < nid) ∧
      st1.seq = (nid, true) ∧ (st.db = [] → nid = 1) := by
  by_cases hempty : st.db.length = 0
  · refine ⟨1, ⟨st.db, (1, true)⟩, ?_, rfl, Nat.one_pos, ?_, rfl, fun _ => rfl⟩
    · cases st
      simp [nextIdentity, hempty, nextvalOp, seqNextVal]
    · intro p hp
      rw [List.length_eq_zero] at hempty
      rw [hempty] at hp
      exact absurd hp (List.not_mem_nil p)
  · refine ⟨seqNextVal st.seq, ⟨st.db, (seqNextVal st.seq, true)⟩, ?_, rfl,
      hinv.1, fun p hp => hinv.2 p hp, rfl, ?_⟩
    · cases st
      simp [nextIdentity, hempty, nextvalOp]
    · intro he
      rw [he] at hempty
      simp at hempty

/-! ### Invariant preservation by each endpoint -/

theorem nodup_append_singleton {l : List Nat} {a : Nat} (h : l.Nodup)
    (ha : a ∉ l) : (l ++ [a]).Nodup := by
  rw [List.Perm.nodup_iff (List.perm_append_singleton a l)]
  exact List.nodup_cons.mpr ⟨ha, h⟩

theorem seqInv_db_eq {st : ServerState} {db' : DB}
    (h : idsOf db' = idsOf st.db) (hinv : SeqInv st) :
    SeqInv ⟨db', st.seq⟩ := by
  refine ⟨hinv.1, ?_⟩
  intro p hp
  have hmem : p.id ∈ idsOf st.db := h ▸ List.mem_map_of_mem (fun q => q.id) hp
  obtain ⟨q, hq, he⟩ := List.mem_map.mp hmem
  rw [← he]
  exact hinv.2 q hq

theorem checkin_inv {maxA : Nat} {res : Bool} {st : ServerState} {now : Nat}
    {inp : CheckinInput}
    (h1 : NodupIds st.db) (h2 : SeqInv st) (h3 : allowedCount st.db ≤ maxA) :
    NodupIds (checkinEndpoint res now st inp).1.db ∧
    SeqInv (checkinEndpoint res now st inp).1 ∧
    allowedCount (checkinEndpoint res now st inp).1.db ≤ maxA := by
  unfold checkinEndpoint
  by_cases hval : inp.name = "" ∨ inp.country = ""
  · rw [if_pos hval]
    exact ⟨h1, h2, h3⟩
  · rw [if_neg hval]
    by_cases hage : inp.age < 0
    · rw [if_pos hage]
      exact ⟨h1, h2, h3⟩
    · rw [if_neg hage]
      cases res with
      | false =>
        rw [nextIdentity_false]
        exact ⟨h1, h2, h3⟩
      | true =>
        obtain ⟨nid, st1, heq, hdb, hpos, hgt, hseq, -⟩ := nextIdentity_spec h2
        rw [heq]
        have hsv : seqNextVal (nid, true) = nid + 1 := rfl
        refine ⟨?_, ⟨?_, ?_⟩, ?_⟩
        · show NodupIds (st1.db ++ [_])
          rw [NodupIds, idsOf, List.map_append, hdb]
          refine nodup_append_singleton h1 ?_
          intro hmem
          obtain ⟨q, hq, he⟩ := List.mem_map.mp hmem
          exact absurd (he ▸ hgt q hq) (lt_irrefl _)
        · show 0 < seqNextVal st1.seq
          rw [hseq, hsv]
          omega
        · intro p hp
          show p.id < seqNextVal st1.seq
          rw [hseq, hsv]
          have hp' : p ∈ st1.db ∨ p ∈ [(⟨nid, formatToken nid, inp.name.trim,
              inp.age, inp.country.trim,
              (if ((inp.details.getD "").trim = "") then none
               else some ((inp.details.getD "").trim)),
              Status.waiting, none, none, now⟩ : Patient)] :=
            List.mem_append.mp hp
          rcases hp' with hold | hnew
          · have := hgt p (hdb ▸ hold)
            omega
          · rcases List.mem_singleton.mp hnew with rfl
            simp
        · show allowedCount (st1.db ++ [_]) ≤ maxA
          rw [allowedCount, List.countP_append, hdb]
          have hz : List.countP isAllowed [(⟨nid, formatToken nid, inp.name.trim,
              inp.age, inp.country.trim,
              (if ((inp.details.getD "").trim = "") then none
               else some ((inp.details.getD "").trim)),
              Status.waiting, none, none, now⟩ : Patient)] = 0 := by
            simp [isAllowed]
          rw [hz]
          simpa using h3

theorem promoteEndpoint_db_inv {maxA now : Nat} {s : DB} (t : String)
    (hmax : 0 < maxA) (hs : NodupIds s) (hle : allowedCount s ≤ maxA) :
    allowedCount (promoteEndpoint maxA now s t).1 ≤ maxA ∧
    idsOf (promoteEndpoint maxA now s t).1 = idsOf s ∧
    tokensOf (promoteEndpoint maxA now s t).1 = tokensOf s := by
  unfold promoteEndpoint
  by_cases h : (setPatientAllowed maxA now s t).2.notFound
  · rw [if_pos h]
    exact ⟨hle, rfl, rfl⟩
  · rw [if_neg h]
    exact ⟨allowedCount_setPatientAllowed_le now t hmax hs hle,
      idsOf_setPatientAllowed maxA now s t,
      tokensOf_setPatientAllowed maxA now s t⟩

theorem removeEndpoint_of_find_none {now : Nat} {s : DB} {t : String}
    (h : s.find? (fun p => p.token = normalizeToken t) = none) :
    removeEndpoint now s t = (s, none) := by
  simp [removeEndpoint, h]

theorem removeEndpoint_of_find_some {now : Nat} {s : DB} {t : String}
    {x : Patient} (h : s.find? (fun p => p.token = normalizeToken t) = some x) :
    removeEndpoint now s t =
      (updateRows (fun p => p.token = normalizeToken t) (setDoneF now) s,
       some (isAllowed x)) := by
  simp [removeEndpoint, h]

theorem removeEndpoint_db_inv (now : Nat) (s : DB) (t : String) :
    allowedCount (removeEndpoint now s t).1 ≤ allowedCount s ∧
    idsOf (removeEndpoint now s t).1 = idsOf s ∧
    tokensOf (removeEndpoint now s t).1 = tokensOf s := by
  cases h : s.find? (fun p => p.token = normalizeToken t) with
  | none =>
    rw [removeEndpoint_of_find_none h]
    exact ⟨Nat.le_refl _, rfl, rfl⟩
  | some x =>
    rw [removeEndpoint_of_find_some h]
    refine ⟨?_, idsOf_updateRows (f := setDoneF now) (fun p => rfl) s,
      tokensOf_updateRows (f := setDoneF now) (fun p => rfl) s⟩
    have := countP_updateRows_setDone (fun p => p.token = normalizeToken t) now s
    simp only [allowedCount]
    omega

theorem nextEndpoint_db_inv {maxA now : Nat} {s : DB} (n : Int)
    (hmax : 0 < maxA) (hs : NodupIds s) (hle : allowedCount s ≤ maxA) :
    allowedCount (nextEndpoint maxA now s n).1 ≤ maxA ∧
    idsOf (nextEndpoint maxA now s n).1 = idsOf s ∧
    tokensOf (nextEndpoint maxA now s n).1 = tokensOf s := by
  unfold nextEndpoint
  by_cases h0 : n ≤ 0
  · rw [if_pos h0]
    exact ⟨hle, rfl, rfl⟩
  · rw [if_neg h0]
    by_cases hsel : waitingTokens s n.toNat = []
    · rw [if_pos hsel]
      exact ⟨hle, rfl, rfl⟩
    · rw [if_neg hsel]
      cases hloop : promoteLoop maxA now s (waitingTokens s n.toNat) with
      | none => exact ⟨hle, rfl, rfl⟩
      | some z =>
        obtain ⟨s1, pr, fin⟩ := z
        obtain ⟨hc, hi, ht⟩ := promoteLoop_count_le hmax _ s hs hle hloop
        exact ⟨hc, hi, ht⟩

/-! ### The global capacity invariant over operation sequences -/

/-- The inductive state invariant: primary-key uniqueness, the identity
sequence above every stored id, and the capacity bound. -/
def StateInv (maxA : Nat) (st : ServerState) : Prop :=
  NodupIds st.db ∧ SeqInv st ∧ allowedCount st.db ≤ maxA

instance (maxA : Nat) (st : ServerState) : Decidable (StateInv maxA st) :=
  inferInstanceAs (Decidable (_ ∧ _ ∧ _))

theorem applyOp_inv {maxA : Nat} {res : Bool} {st : ServerState}
    (hmax : 0 < maxA) (h : StateInv maxA st) (op : Op) :
    StateInv maxA (applyOp maxA res st op) := by
  obtain ⟨h1, h2, h3⟩ := h
  cases op with
  | register now inp =>
    obtain ⟨g1, g2, g3⟩ := @checkin_inv maxA res st now inp h1 h2 h3
    exact ⟨g1, g2, g3⟩
  | promoteOne now t =>
    obtain ⟨g1, g2, g3⟩ := @promoteEndpoint_db_inv maxA now st.db t hmax h1 h3
    refine ⟨nodupIds_of_idsOf_eq g2 h1, ?_, g1⟩
    exact seqInv_db_eq g2 h2
  | removeOne now t =>
    obtain ⟨g1, g2, g3⟩ := removeEndpoint_db_inv now st.db t
    refine ⟨nodupIds_of_idsOf_eq g2 h1, ?_, Nat.le_trans g1 h3⟩
    exact seqInv_db_eq g2 h2
  | promoteNext now n =>
    obtain ⟨g1, g2, g3⟩ := @nextEndpoint_db_inv maxA now st.db n hmax h1 h3
    refine ⟨nodupIds_of_idsOf_eq g2 h1, ?_, g1⟩
    exact seqInv_db_eq g2 h2

theorem applyOps_inv {maxA : Nat} {res : Bool} (hmax : 0 < maxA) :
    ∀ (ops : List Op) (st : ServerState), StateInv maxA st →
      StateInv maxA (applyOps maxA res st ops) := by
  intro ops
  induction ops with
  | nil => intro st h; exact h
  | cons op rest ih =>
    intro st h
    exact ih _ (applyOp_inv hmax h op)

/-! ### Remaining small helpers -/

theorem promoteEndpoint_of_notFound {maxA now : Nat} {s : DB} {t : String}
    (h : (setPatientAllowed maxA now s t).2.notFound = true) :
    promoteEndpoint maxA now s t = (s, none) := by
  simp [promoteEndpoint, h]

theorem promoteEndpoint_of_found {maxA now : Nat} {s : DB} {t : String}
    (h : (setPatientAllowed maxA now s t).2.notFound = false) :
    promoteEndpoint maxA now s t =
      ((setPatientAllowed maxA now s t).1,
       some ((setPatientAllowed maxA now s t).2.patient,
             (setPatientAllowed maxA now s t).2.tokensFinished.getD [])) := by
  simp [promoteEndpoint, h]

theorem head?_take {α : Type _} {n : Nat} (h : 0 < n) (l : List α) :
    (l.take n).head? = l.head? := by
  cases n with
  | zero => omega
  | succ m => cases l <;> rfl

/-- A concrete row used in concrete evaluations of the model. -/
def mkRow (i : Nat) (st : Status) (adm fin : Option Nat) : Patient :=
  { id := i, token := "T" ++ toString i, name := "p", age := 0, country := "c",
    details := none, status := st, admitted_at := adm, finished_at := fin,
    created_at := 0 }

/-! ### The claims -/

/-- C1: for every sequence of operations (check-in, promote, remove, batch
promote) starting from a well-formed state with at most `MAX_ALLOWED`
entities `allowed`, every reachable state still has at most `MAX_ALLOWED`
entities `allowed` — promotion makes room by evicting before setting the
target `allowed`. -/
theorem c1_capacity_invariant (maxA : Nat) (res : Bool) (st : ServerState)
    (ops : List Op) (hmax : 0 < maxA) (hids : NodupIds st.db)
    (hseq : SeqInv st) (hcount : allowedCount st.db ≤ maxA) :
    allowedCount (applyOps maxA res st ops).db ≤ maxA :=
  (applyOps_inv hmax ops st ⟨hids, hseq, hcount⟩).2.2

/-- Witness for C1 at a concrete run: three check-ins, two single promotions,
a batch promotion and a removal under capacity 2. -/
theorem c1_capacity_invariant_witness :
    (0 < 2 ∧ NodupIds (ServerState.mk [] (1, false)).db ∧
      SeqInv (ServerState.mk [] (1, false)) ∧
      allowedCount (ServerState.mk [] (1, false)).db ≤ 2) ∧
    allowedCount (applyOps 2 true (ServerState.mk [] (1, false))
      [Op.register 0 ⟨"A", 0, "X", none⟩, Op.register 1 ⟨"B", 0, "X", none⟩,
       Op.register 2 ⟨"C", 0, "X", none⟩, Op.promoteOne 3 "T1",
       Op.promoteOne 4 "T2", Op.promoteNext 5 3, Op.removeOne 6 "T2"]).db ≤ 2 :=
  ⟨⟨by decide, by decide, by decide, by decide⟩,
   c1_capacity_invariant 2 true (ServerState.mk [] (1, false))
      [Op.register 0 ⟨"A", 0, "X", none⟩, Op.register 1 ⟨"B", 0, "X", none⟩,
       Op.register 2 ⟨"C", 0, "X", none⟩, Op.promoteOne 3 "T1",
       Op.promoteOne 4 "T2", Op.promoteNext 5 3, Op.removeOne 6 "T2"]
      (by decide) (by decide) (by decide) (by decide)⟩

/-- C2 counterexample: in a drifted state with three `allowed` rows and
`MAX_ALLOWED = 1`, the make-room step of a promotion evicts only one row
(`slotsNeeded = 1`), leaving two, which is neither below capacity nor
zero — the loop is bounded by `slotsNeeded`, not by the capacity check. -/
theorem c2_counterexample :
    allowedCount (makeRoomFor 1 9
      [mkRow 1 Status.allowed (some 1) none, mkRow 2 Status.allowed (some 2) none,
       mkRow 3 Status.allowed (some 3) none] 1).1 = 2 ∧
    ¬ (allowedCount (makeRoomFor 1 9
      [mkRow 1 Status.allowed (some 1) none, mkRow 2 Status.allowed (some 2) none,
       mkRow 3 Status.allowed (some 3) none] 1).1 < 1 ∨
      allowedCount (makeRoomFor 1 9
      [mkRow 1 Status.allowed (some 1) none, mkRow 2 Status.allowed (some 2) none,
       mkRow 3 Status.allowed (some 3) none] 1).1 = 0) := by
  decide

/-- C2 (amended): the make-room step of a promotion (`slotsNeeded = 1`)
evicts at most one entity: exactly the single oldest `allowed` row, and only
when the allowed count is at or above capacity and an allowed row exists.
From a state satisfying the invariant the resulting allowed count is below
capacity or zero, and whenever an eviction happens the count drops by exactly
one (so a drifted state is reduced by one, not below capacity). -/
theorem c2_make_room_amended (maxA now : Nat) (s : DB) (hs : NodupIds s) :
    (makeRoomFor maxA now s 1).2.length ≤ 1 ∧
    (allowedCount s ≤ maxA →
      allowedCount (makeRoomFor maxA now s 1).1 < maxA ∨
      allowedCount (makeRoomFor maxA now s 1).1 = 0) ∧
    (maxA ≤ allowedCount s → 0 < allowedCount s →
      ∃ v, (sortAllowed s).head? = some v ∧
        makeRoomFor maxA now s 1 =
          (updateRows (fun p => p.id = v.id) (setDoneF now) s, [v.token]) ∧
        allowedCount (makeRoomFor maxA now s 1).1 + 1 = allowedCount s) := by
  by_cases hlt : allowedCount s < maxA
  · rw [makeRoomFor_succ_lt 0 hlt]
    exact ⟨by simp, fun _ => Or.inl hlt, fun hge _ => absurd hge (by omega)⟩
  · by_cases hz : allowedCount s = 0
    · have hnil : (sortAllowed s).head? = none := by
        cases hh : (sortAllowed s).head? with
        | none => rfl
        | some v =>
          have := length_sortAllowed s
          cases he : sortAllowed s with
          | nil => rw [he] at hh; exact Option.noConfusion hh
          | cons a u => rw [he] at this; simp at this; omega
      have heq : makeRoomFor maxA now s 1 = (s, []) := by
        simp [makeRoomFor, hlt, hnil]
      rw [heq]
      exact ⟨by simp, fun _ => Or.inr hz, fun _ hpos => absurd hz (by omega)⟩
    · obtain ⟨v, hv⟩ := sortAllowed_head_isSome (s := s) (by omega)
      have heq : makeRoomFor maxA now s 1 =
          (updateRows (fun p => p.id = v.id) (setDoneF now) s, [v.token]) := by
        rw [makeRoomFor_succ_ge 0 hlt hv]
        rfl
      have hdec := allowedCount_evict hs hv now
      have hfst : (makeRoomFor maxA now s 1).1
          = updateRows (fun p => p.id = v.id) (setDoneF now) s := by rw [heq]
      refine ⟨?_, fun hle => Or.inl ?_, fun hge _ => ⟨v, hv, heq, ?_⟩⟩
      · rw [heq]
        simp
      · rw [hfst]
        omega
      · rw [hfst]
        omega

/-- Witness for C2 (amended) at a concrete full state with capacity 1. -/
theorem c2_make_room_amended_witness :
    NodupIds [mkRow 1 Status.allowed (some 1) none] ∧
    ((makeRoomFor 1 9 [mkRow 1 Status.allowed (some 1) none] 1).2.length ≤ 1 ∧
    (allowedCount [mkRow 1 Status.allowed (some 1) none] ≤ 1 →
      allowedCount (makeRoomFor 1 9 [mkRow 1 Status.allowed (some 1) none] 1).1 < 1 ∨
      allowedCount (makeRoomFor 1 9 [mkRow 1 Status.allowed (some 1) none] 1).1 = 0) ∧
    (1 ≤ allowedCount [mkRow 1 Status.allowed (some 1) none] →
      0 < allowedCount [mkRow 1 Status.allowed (some 1) none] →
      ∃ v, (sortAllowed [mkRow 1 Status.allowed (some 1) none]).head? = some v ∧
        makeRoomFor 1 9 [mkRow 1 Status.allowed (some 1) none] 1 =
          (updateRows (fun p => p.id = v.id) (setDoneF 9)
            [mkRow 1 Status.allowed (some 1) none], [v.token]) ∧
        allowedCount (makeRoomFor 1 9 [mkRow 1 Status.allowed (some 1) none] 1).1 + 1
          = allowedCount [mkRow 1 Status.allowed (some 1) none])) :=
  ⟨by decide, c2_make_room_amended 1 9 [mkRow 1 Status.allowed (some 1) none] (by decide)⟩

/-- C3 counterexample: removing an already-`done` entity is *not* a NotFound
no-op — the endpoint finds the row, answers success, and re-stamps
`finished_at` from 5 to the current transaction time 9. -/
theorem c3_counterexample :
    (removeEndpoint 9 [mkRow 1 Status.done (some 3) (some 5)] "T1").2 ≠ none ∧
    (removeEndpoint 9 [mkRow 1 Status.done (some 3) (some 5)] "T1").1
      = [mkRow 1 Status.done (some 3) (some 9)] := by
  decide

/-- C3 (amended): remove fails with NotFound exactly when no entity carries
the normalized token, and then changes nothing; when an entity is found —
whether `waiting`, `allowed`, or already `done` — the call succeeds
(reporting whether it was `allowed`), sets `status = done` and stamps
`finished_at` with the current time, re-stamping it for an already-`done`
entity. -/
theorem c3_remove_amended (now : Nat) (s : DB) (t : String) :
    ((removeEndpoint now s t).2 = none ↔
      s.find? (fun p => p.token = normalizeToken t) = none) ∧
    ((removeEndpoint now s t).2 = none → (removeEndpoint now s t).1 = s) ∧
    (∀ x, s.find? (fun p => p.token = normalizeToken t) = some x →
      (removeEndpoint now s t).2 = some (isAllowed x) ∧
      ∀ q ∈ s,
        (q.token = normalizeToken t → setDoneF now q ∈ (removeEndpoint now s t).1) ∧
        (q.token ≠ normalizeToken t → q ∈ (removeEndpoint now s t).1)) := by
  cases h : s.find? (fun p => p.token = normalizeToken t) with
  | none =>
    rw [removeEndpoint_of_find_none h]
    exact ⟨by simp, fun _ => rfl, fun x hx => Option.noConfusion hx⟩
  | some x =>
    rw [removeEndpoint_of_find_some h]
    refine ⟨by simp, by simp, fun y hy => ?_⟩
    injection hy with hy
    subst hy
    refine ⟨rfl, fun q hq => ⟨fun hqt => ?_, fun hqt => ?_⟩⟩
    · exact mem_updateRows_of_hit hq (by simp [hqt])
    · exact mem_updateRows_of_not_hit hq (by simp [hqt])

/-- Witness for C3 (amended): removing a waiting entity succeeds with
`wasAllowed = false` and stamps the row `done`. -/
theorem c3_remove_amended_witness :
    (removeEndpoint 9 [mkRow 1 Status.waiting none none] "T1").2
        = some (isAllowed (mkRow 1 Status.waiting none none)) ∧
    setDoneF 9 (mkRow 1 Status.waiting none none)
        ∈ (removeEndpoint 9 [mkRow 1 Status.waiting none none] "T1").1 := by
  have h := (c3_remove_amended 9 [mkRow 1 Status.waiting none none] "T1").2.2
    (mkRow 1 Status.waiting none none) (by decide)
  exact ⟨h.1, (h.2 (mkRow 1 Status.waiting none none) (by decide)).1 (by decide)⟩

/-- C4: the admit endpoint fails with NotFound exactly when no entity
carries the normalized token or the found entity is already `done`, and a
NotFound failure rolls the transaction back, changing no state. -/
theorem c4_promote_notFound (maxA now : Nat) (s : DB) (t : String) :
    ((promoteEndpoint maxA now s t).2 = none ↔
      (s.find? (fun p => p.token = normalizeToken t) = none ∨
        ∃ x, s.find? (fun p => p.token = normalizeToken t) = some x ∧
          x.status = Status.done)) ∧
    ((promoteEndpoint maxA now s t).2 = none →
      (promoteEndpoint maxA now s t).1 = s) := by
  cases h : s.find? (fun p => p.token = normalizeToken t) with
  | none =>
    have he := promoteEndpoint_of_notFound
      (by rw [setPatientAllowed_of_find_none h] : (setPatientAllowed maxA now s t).2.notFound = true)
    rw [he]
    exact ⟨⟨fun _ => Or.inl rfl, fun _ => rfl⟩, fun _ => rfl⟩
  | some x =>
    cases hx : x.status with
    | done =>
      have he := promoteEndpoint_of_notFound
        (by rw [setPatientAllowed_of_done h hx] : (setPatientAllowed maxA now s t).2.notFound = true)
      rw [he]
      refine ⟨⟨fun _ => Or.inr ⟨x, rfl, hx⟩, fun _ => rfl⟩, fun _ => rfl⟩
    | allowed =>
      have he := promoteEndpoint_of_found
        (by rw [setPatientAllowed_of_allowed h hx] : (setPatientAllowed maxA now s t).2.notFound = false)
      rw [he]
      refine ⟨⟨fun hc => by simp at hc, fun hc => ?_⟩, fun hc => by simp at hc⟩
      rcases hc with hc | ⟨y, hy, hyd⟩
      · exact Option.noConfusion hc
      · injection hy with hy
        subst hy
        rw [hx] at hyd
        exact Status.noConfusion hyd
    | waiting =>
      have he := promoteEndpoint_of_found
        (by rw [setPatientAllowed_of_waiting h hx] : (setPatientAllowed maxA now s t).2.notFound = false)
      rw [he]
      refine ⟨⟨fun hc => by simp at hc, fun hc => ?_⟩, fun hc => by simp at hc⟩
      rcases hc with hc | ⟨y, hy, hyd⟩
      · exact Option.noConfusion hc
      · injection hy with hy
        subst hy
        rw [hx] at hyd
        exact Status.noConfusion hyd

/-- Witness for C4: admitting an unknown token 404s and changes nothing. -/
theorem c4_promote_notFound_witness :
    (promoteEndpoint 20 5 [mkRow 1 Status.waiting none none] "NOPE").2 = none ∧
    (promoteEndpoint 20 5 [mkRow 1 Status.waiting none none] "NOPE").1
      = [mkRow 1 Status.waiting none none] := by
  have h1 := (c4_promote_notFound 20 5 [mkRow 1 Status.waiting none none] "NOPE").1.mpr
    (Or.inl (by decide))
  exact ⟨h1, (c4_promote_notFound 20 5 [mkRow 1 Status.waiting none none] "NOPE").2 h1⟩

/-- C5: promoting an already-`allowed` entity returns success with zero
evictions and leaves both the state and the entity's record — in particular
`admitted_at` — unchanged. -/
theorem c5_idempotent (maxA now : Nat) (s : DB) (t : String) (x : Patient)
    (hfind : s.find? (fun p => p.token = normalizeToken t) = some x)
    (hx : x.status = Status.allowed) :
    setPatientAllowed maxA now s t = (s, ⟨some x, some [], false⟩) ∧
    promoteEndpoint maxA now s t = (s, some (some x, [])) := by
  have h1 := @setPatientAllowed_of_allowed maxA now s t x hfind hx
  refine ⟨h1, ?_⟩
  have he := promoteEndpoint_of_found
    (by rw [h1] : (setPatientAllowed maxA now s t).2.notFound = false)
  rw [he, h1]
  rfl

/-- Witness for C5 at a concrete allowed entity: `admitted_at` stays 2. -/
theorem c5_idempotent_witness :
    setPatientAllowed 20 9 [mkRow 1 Status.allowed (some 2) none] "T1"
      = ([mkRow 1 Status.allowed (some 2) none],
         ⟨some (mkRow 1 Status.allowed (some 2) none), some [], false⟩) :=
  (c5_idempotent 20 9 [mkRow 1 Status.allowed (some 2) none] "T1"
    (mkRow 1 Status.allowed (some 2) none) (by decide) (by decide)).1

/-- C6: with positive capacity and at least one `allowed` entity, the first
row of the allowed snapshot is exactly the row the eviction step of a
promotion requiring room (allowed count at capacity or above) would evict —
both use the ordering `admitted_at ASC NULLS FIRST, id ASC`. -/
theorem c6_snapshot_head_eviction (maxA now : Nat) (s : DB)
    (hmax : 0 < maxA) (hne : ∃ p ∈ s, p.status = Status.allowed) :
    ∃ v, (getAllowedPatients maxA s).head? = some v ∧
      (sortAllowed s).head? = some v ∧
      (maxA ≤ allowedCount s → (makeRoomFor maxA now s 1).2 = [v.token]) := by
  have hpos : 0 < allowedCount s := by
    rw [allowedCount, List.countP_pos_iff]
    obtain ⟨p, hp, hpa⟩ := hne
    exact ⟨p, hp, isAllowed_iff.mpr hpa⟩
  obtain ⟨v, hv⟩ := sortAllowed_head_isSome hpos
  refine ⟨v, ?_, hv, fun hge => ?_⟩
  · rw [getAllowedPatients, head?_take hmax, hv]
  · rw [makeRoomFor_succ_ge 0 (by omega) hv]
    rfl

/-- Witness for C6 at a concrete two-entity allowed set. -/
theorem c6_snapshot_head_eviction_witness :
    (0 < 2 ∧ (∃ p ∈ [mkRow 1 Status.allowed (some 4) none,
        mkRow 2 Status.allowed (some 3) none], p.status = Status.allowed)) ∧
    ∃ v, (getAllowedPatients 2 [mkRow 1 Status.allowed (some 4) none,
        mkRow 2 Status.allowed (some 3) none]).head? = some v ∧
      (sortAllowed [mkRow 1 Status.allowed (some 4) none,
        mkRow 2 Status.allowed (some 3) none]).head? = some v ∧
      (2 ≤ allowedCount [mkRow 1 Status.allowed (some 4) none,
          mkRow 2 Status.allowed (some 3) none] →
        (makeRoomFor 2 9 [mkRow 1 Status.allowed (some 4) none,
          mkRow 2 Status.allowed (some 3) none] 1).2 = [v.token]) :=
  ⟨⟨by decide, by decide⟩,
   c6_snapshot_head_eviction 2 9
     [mkRow 1 Status.allowed (some 4) none, mkRow 2 Status.allowed (some 3) none]
     (by decide) (by decide)⟩

/-- C7 (code bug): when an iteration of the batch loop hits a `notFound`
entity (here: the token of an already-`done` row), `tokensFinished` is
undefined and `finishedTokens.push(...tokensFinished)` throws, aborting the
whole batch with a rollback — the entity is *not* skipped, contradicting the
skip-on-NotFound policy that the loop's own `!notFound` guard intends. -/
theorem c7_notFound_aborts_batch :
    promoteLoop 20 9 [mkRow 1 Status.done none (some 5)] ["T1"] = none := by
  decide

/-- C8: identity allocation under the sequence invariant: an unresolvable
sequence is a fatal error; otherwise the allocator returns a fresh positive
id strictly greater than every stored id (never reusing one), initializing
the counter lazily so the first allocation against an empty store yields 1,
and re-establishes the invariant for subsequent allocations. -/
theorem c8_identity_allocator (st : ServerState) (hinv : SeqInv st) :
    nextIdentity false st = none ∧
    ∃ nid st1, nextIdentity true st = some (nid, st1) ∧
      0 < nid ∧ (∀ p ∈ st.db, p.id < nid) ∧
      st1.db = st.db ∧ SeqInv st1 ∧ (st.db = [] → nid = 1) := by
  refine ⟨nextIdentity_false st, ?_⟩
  obtain ⟨nid, st1, heq, hdb, hpos, hgt, hseq, hone⟩ := nextIdentity_spec hinv
  have hsv : seqNextVal (nid, true) = nid + 1 := rfl
  refine ⟨nid, st1, heq, hpos, hgt, hdb, ⟨?_, ?_⟩, hone⟩
  · rw [hseq, hsv]
    omega
  · intro p hp
    rw [hseq, hsv]
    have := hgt p (hdb ▸ hp)
    omega

/-- Witness for C8 at a concrete one-row store. -/
theorem c8_identity_allocator_witness :
    SeqInv (ServerState.mk [mkRow 1 Status.waiting none none] (1, true)) ∧
    (nextIdentity false (ServerState.mk [mkRow 1 Status.waiting none none] (1, true)) = none ∧
    ∃ nid st1, nextIdentity true
        (ServerState.mk [mkRow 1 Status.waiting none none] (1, true)) = some (nid, st1) ∧
      0 < nid ∧
      (∀ p ∈ (ServerState.mk [mkRow 1 Status.waiting none none] (1, true)).db, p.id < nid) ∧
      st1.db = (ServerState.mk [mkRow 1 Status.waiting none none] (1, true)).db ∧
      SeqInv st1 ∧
      ((ServerState.mk [mkRow 1 Status.waiting none none] (1, true)).db = [] → nid = 1)) :=
  ⟨by decide, c8_identity_allocator
    (ServerState.mk [mkRow 1 Status.waiting none none] (1, true)) (by decide)⟩

/-- C9: a non-positive batch size is rejected with InvalidArgument before
any work, leaving the state unchanged. -/
theorem c9_nonpositive_rejected (maxA now : Nat) (s : DB) (n : Int)
    (h : n ≤ 0) :
    nextEndpoint maxA now s n = (s, NextResult.invalidArgument) := by
  unfold nextEndpoint
  rw [if_pos h]

/-- Witness for C9 at the two boundary inputs 0 and -1. -/
theorem c9_nonpositive_rejected_witness :
    nextEndpoint 20 9 [mkRow 1 Status.waiting none none] 0
        = ([mkRow 1 Status.waiting none none], NextResult.invalidArgument) ∧
    nextEndpoint 20 9 [mkRow 1 Status.waiting none none] (-1)
        = ([mkRow 1 Status.waiting none none], NextResult.invalidArgument) :=
  ⟨c9_nonpositive_rejected 20 9 [mkRow 1 Status.waiting none none] 0 (by decide),
   c9_nonpositive_rejected 20 9 [mkRow 1 Status.waiting none none] (-1) (by decide)⟩

/-- C10: batch promotion with `n > 0` on a well-formed invariant state with
`k ≥ 1` waiting entities answers a promoted count of exactly `min n k` (every
pre-selected waiting entity is promoted; none is lost to `NotFound`), and
when `min n k` exceeds the capacity, some entity that was still waiting at
the start of the batch — hence promoted by an earlier step of this very call
and included in the count — ends with its token in the aggregated evicted
list, having been evicted again by a later step of the same call. -/
theorem c10_batch_min_and_self_eviction (maxA now : Nat) (s : DB) (n : Int)
    (hmax : 0 < maxA) (hids : NodupIds s) (htok : NodupTokens s)
    (hcan : Canonical s) (hle : allowedCount s ≤ maxA)
    (hn : 0 < n) (hk : 0 < waitingCount s) :
    ∃ s1 fin, nextEndpoint maxA now s n
        = (s1, NextResult.okNext (min n.toNat (waitingCount s)) fin) ∧
      (maxA < min n.toNat (waitingCount s) →
        ∃ p ∈ s, p.status = Status.waiting ∧ p.token ∈ fin) := by
  have h0 : ¬ n ≤ 0 := by omega
  have hlen : (waitingTokens s n.toNat).length = min n.toNat (waitingCount s) :=
    length_waitingTokens s n.toNat
  have hminpos : 0 < min n.toNat (waitingCount s) := by
    have : 0 < n.toNat := by omega
    omega
  have hsel : ¬ waitingTokens s n.toNat = [] := by
    intro he
    rw [he] at hlen
    simp at hlen
    omega
  obtain ⟨s1, pr, fin, hloop, hmap, hall⟩ :=
    promoteLoop_main hmax (waitingTokens s n.toNat) s hids htok hcan hle
      (waitingTokens_nodup htok n.toNat)
      (fun t ht => waitingTokens_sound ht)
  have hcount : pr.length = min n.toNat (waitingCount s) := by
    rw [← hlen, ← hmap, List.length_map]
  refine ⟨s1, fin, ?_, ?_⟩
  · unfold nextEndpoint
    rw [if_neg h0, if_neg hsel, hloop]
    change (s1, NextResult.okNext pr.length fin) = _
    rw [hcount]
  · intro hgt
    by_contra hnone
    push_neg at hnone
    have hsub : waitingTokens s n.toNat
        ⊆ (s1.filter isAllowed).map (fun p => p.token) := by
      intro t ht
      obtain ⟨w, hwmem, hwtok, hww⟩ := waitingTokens_sound ht
      rcases hall t ht with hfin | ⟨q, hq, hqt, hqa⟩
      · rw [← hwtok] at hfin
        exact absurd hfin (hnone w hwmem hww)
      · exact List.mem_map.mpr ⟨q, List.mem_filter.mpr ⟨hq, isAllowed_iff.mpr hqa⟩, hqt⟩
    have hlelen : (waitingTokens s n.toNat).length
        ≤ ((s1.filter isAllowed).map (fun p => p.token)).length :=
      List.Subperm.length_le
        (List.subperm_of_subset (waitingTokens_nodup htok n.toNat) hsub)
    have hc1 : ((s1.filter isAllowed).map (fun p => p.token)).length
        = allowedCount s1 := by
      rw [List.length_map, ← List.countP_eq_length_filter]
      rfl
    obtain ⟨hcle, -, -⟩ := promoteLoop_count_le hmax _ s hids hle hloop
    omega

/-- Witness for C10: capacity 1, two waiting entities, n = 2: both are
promoted (count 2 = min 2 2) and the first, already promoted by step one, is
evicted by step two of the same call. -/
theorem c10_batch_min_and_self_eviction_witness :
    (0 < 1 ∧
     NodupIds [mkRow 1 Status.waiting none none, mkRow 2 Status.waiting none none] ∧
     NodupTokens [mkRow 1 Status.waiting none none, mkRow 2 Status.waiting none none] ∧
     Canonical [mkRow 1 Status.waiting none none, mkRow 2 Status.waiting none none] ∧
     allowedCount [mkRow 1 Status.waiting none none, mkRow 2 Status.waiting none none] ≤ 1 ∧
     0 < (2 : Int) ∧
     0 < waitingCount [mkRow 1 Status.waiting none none, mkRow 2 Status.waiting none none]) ∧
    ∃ s1 fin, nextEndpoint 1 7
        [mkRow 1 Status.waiting none none, mkRow 2 Status.waiting none none] 2
        = (s1, NextResult.okNext (min (2 : Int).toNat
            (waitingCount [mkRow 1 Status.waiting none none,
              mkRow 2 Status.waiting none none])) fin) ∧
      (1 < min (2 : Int).toNat (waitingCount [mkRow 1 Status.waiting none none,
          mkRow 2 Status.waiting none none]) →
        ∃ p ∈ [mkRow 1 Status.waiting none none, mkRow 2 Status.waiting none none],
          p.status = Status.waiting ∧ p.token ∈ fin) :=
  ⟨⟨by decide, by decide, by decide, by decide, by decide, by decide, by decide⟩,
   c10_batch_min_and_self_eviction 1 7
     [mkRow 1 Status.waiting none none, mkRow 2 Status.waiting none none] 2
     (by decide) (by decide) (by decide) (by decide) (by decide) (by decide) (by decide)⟩

end Clinic
